import Mathlib

/-!
Shallow embedding of the HiPhish/Newton-method expression pipeline.

The C sources embedded here are:
  Source/syntax_node/syntax_node.c  (tree data model, evaluation, folding,
                                     symbolic differentiation)
  Source/compiler/backend/backend.c (tree-to-bytecode compiler)
  Source/virtual_machine/vm.c       (stack-based bytecode interpreter)
  Source/parser/parser.c            (shunting-yard parser)
  Source/method/method.c            (Newton iteration driver)

Modelling conventions, used uniformly below:
  * C doubles are embedded as elements of a linear ordered field; the libm
    functions and the PI/E constants the code uses are kept abstract in a
    `MathFns` bundle, instantiated with the mathlib real functions
    (`realFns`) and with a computable rational bundle (`qFns`) for
    evaluating the development on concrete inputs.
  * a C function that can terminate the process is given an `Except CErr`
    result: `CErr.exited s` stands for `exit(s)`, `CErr.asserted` for a
    failed `assert`, and `CErr.ub` for reads the C source leaves undefined
    (uninitialised operand slots, bytes reinterpreted across kinds).
    Assertions are modelled as live, which is the default C semantics.
  * allocation failure paths (malloc/realloc returning NULL) are not
    modelled; in the embedding allocation always succeeds.
  * the compiled byte buffer is a list of cells: `Cell.op b` is one opcode
    byte with value `b`, and `Cell.num x` stands for the eight raw bytes of
    the double `x` written by `write_number` (the native bit pattern itself
    is not representable, so the cell carries the value).
-/

namespace Newton

/-- Operator tags, from the C enum `operator_type` (syntax_node.h:26). -/
inductive Op where
  | unknown
  | number
  | negate
  | plus
  | minus
  | times
  | divide
  | power
  | exp
  | ln
  | sin
  | cos
  | tan
  | xvar
  | pi
  | e
  | leftBrace
  | rightBrace
deriving DecidableEq

/-- The C array `operator_arity` (syntax_node.c:336): 0 for numbers,
constants, the variable and braces, 1 for negation and the functions,
2 for the binary operators. -/
def Op.arity : Op → Nat
  | .negate | .exp | .ln | .sin | .cos | .tan => 1
  | .plus | .minus | .times | .divide | .power => 2
  | _ => 0

/-- The C array `operator_precedence` (syntax_node.c:387). The entries
that are 0 are marked `error if this occurs` in the source. -/
def Op.precedence : Op → Nat
  | .plus | .minus => 1
  | .times | .divide => 2
  | .negate => 3
  | .power | .exp | .ln | .sin | .cos | .tan => 4
  | _ => 0

/-- The C struct `SyntaxNode` (syntax_node.h:69): an operator tag, the
numeric payload (meaningful only for number nodes), and the populated
entries of `operand[MAX_ARITY]`. The C `arity` field always equals
`operator_arity[operator_value]` (it is set so on construction and reset
together with the tag when a node is condensed), so it is not carried
separately: the children list stands for the `arity` populated slots. -/
inductive SNode (α : Type) where
  | node (op : Op) (val : α) (children : List (SNode α))

/-- Operator tag of a node (`operator_value`). -/
def SNode.op {α : Type} : SNode α → Op
  | .node o _ _ => o

/-- Numeric payload of a node (`numeric_value`). -/
def SNode.val {α : Type} : SNode α → α
  | .node _ v _ => v

/-- Structural induction over syntax trees, with the inductive hypothesis
available for every child. -/
def SNode.inductionOn {α : Type} {P : SNode α → Prop}
    (t : SNode α)
    (h : ∀ op v ch, (∀ c, c ∈ ch → P c) → P (SNode.node op v ch)) : P t :=
  match t with
  | .node op v ch => h op v ch (fun c hc => SNode.inductionOn c h)
termination_by sizeOf t
decreasing_by
  have := List.sizeOf_lt_of_mem hc
  simp only [SNode.node.sizeOf_spec]
  omega

/-- The libm functions and constants used by the C code (`exp`, `log`,
`sin`, `cos`, `tan`, `pow` from math.h; the `PI` and `E` macros from
newton.h). They are parameters of the embedding. -/
structure MathFns (α : Type) where
  fexp : α → α
  flog : α → α
  fsin : α → α
  fcos : α → α
  ftan : α → α
  fpow : α → α → α
  cpi : α
  ce : α

/-- Ways a C call can fail to return to its caller. -/
inductive CErr where
  | exited (status : Nat)
  | asserted
  | ub
deriving DecidableEq

/-- Reduction of a bind over a successful Except value. -/
@[simp] theorem ok_bind {ε β γ : Type} (a : β) (f : β → Except ε γ) :
    (Except.ok a >>= f : Except ε γ) = f a := rfl

/-- Reduction of a bind over a failed Except value. -/
@[simp] theorem error_bind {ε β γ : Type} (err : ε) (f : β → Except ε γ) :
    ((Except.error err : Except ε β) >>= f) = .error err := rfl

variable {α : Type} [LinearOrderedField α]

/-- The C function `syntax_node_operate` (syntax_node.c:537) together with
the per-operator handlers it dispatches to through `operation_list`:
number nodes return the payload, the variable returns the binding, `pi`
and `e` return the constants, operators combine the recursively evaluated
children. Division checks the evaluated divisor against exactly zero and
terminates the process with `exit(1)` when it is zero
(syntax_node_operation_divide, syntax_node.c:566). Brace and unknown tags
dispatch to `syntax_node_operation_failure`, which is `assert(0)`.
Where C does not populate an operand slot the result is undefined
(`CErr.ub`). -/
def operate (M : MathFns α) : SNode α → α → Except CErr α
  | .node .number v _, _ => .ok v
  | .node .xvar _ _, x => .ok x
  | .node .pi _ _, _ => .ok M.cpi
  | .node .e _ _, _ => .ok M.ce
  | .node .unknown _ _, _ => .error .asserted
  | .node .leftBrace _ _, _ => .error .asserted
  | .node .rightBrace _ _, _ => .error .asserted
  | .node .negate _ [c], x => do
      let a ← operate M c x
      .ok (-1 * a)
  | .node .plus _ [c0, c1], x => do
      let a ← operate M c0 x
      let b ← operate M c1 x
      .ok (a + b)
  | .node .minus _ [c0, c1], x => do
      let a ← operate M c0 x
      let b ← operate M c1 x
      .ok (a - b)
  | .node .times _ [c0, c1], x => do
      let a ← operate M c0 x
      let b ← operate M c1 x
      .ok (a * b)
  | .node .divide _ [c0, c1], x => do
      let divisor ← operate M c1 x
      if divisor = 0 then .error (.exited 1)
      else do
        let a ← operate M c0 x
        .ok (a / divisor)
  | .node .power _ [c0, c1], x => do
      let a ← operate M c0 x
      let b ← operate M c1 x
      .ok (M.fpow a b)
  | .node .exp _ [c], x => do
      let a ← operate M c x
      .ok (M.fexp a)
  | .node .ln _ [c], x => do
      let a ← operate M c x
      .ok (M.flog a)
  | .node .sin _ [c], x => do
      let a ← operate M c x
      .ok (M.fsin a)
  | .node .cos _ [c], x => do
      let a ← operate M c x
      .ok (M.fcos a)
  | .node .tan _ [c], x => do
      let a ← operate M c x
      .ok (M.ftan a)
  | _, _ => .error .ub

/-- The C function `syntax_node_is_constant` (syntax_node.c:519). The
variable is never constant; otherwise the C loop runs `arity` times but
its body tests `operand[0]` at every iteration (line 528), so only the
first child is ever inspected: with at least one child the result is the
result for the first child, and with none it is true. -/
def is_constant : SNode α → Bool
  | .node .xvar _ _ => false
  | .node _ _ [] => true
  | .node _ _ (c :: _) => is_constant c

/-- The C function `syntax_node_condense` (syntax_node.c:486), returning
the int result of the call together with the state the node was left in.
A variable is returned unchanged with result 0. Otherwise every child is
condensed in place (no short-circuit: the C multiplies the results), and
when all children condensed the node is evaluated with placeholder
variable value 0.0 and replaced in place by a number node holding the
result, its children destroyed. -/
def condense (M : MathFns α) : SNode α → Except CErr (Bool × SNode α)
  | .node op v ch =>
    if op = .xvar then .ok (false, .node op v ch)
    else
      match op.arity, ch with
      | 0, _ => do
          let value ← operate M (.node op v ch) 0
          .ok (true, .node .number value [])
      | 1, [c] => do
          let r ← condense M c
          if r.1 then do
            let value ← operate M (.node op v [r.2]) 0
            .ok (true, .node .number value [])
          else .ok (false, .node op v [r.2])
      | 2, [c0, c1] => do
          let r0 ← condense M c0
          let r1 ← condense M c1
          if r0.1 && r1.1 then do
            let value ← operate M (.node op v [r0.2, r1.2]) 0
            .ok (true, .node .number value [])
          else .ok (false, .node op v [r0.2, r1.2])
      | _, _ => .error .ub

/-- The C function `syntax_node_copy` (syntax_node.c:449): a recursive
structural clone. The C loop runs over the `arity` field, which equals the
populated child count; allocation failures are not modelled. -/
def copy : SNode α → SNode α
  | .node op v ch => .node op v (ch.attach.map fun c => copy c.1)
termination_by t => sizeOf t
decreasing_by
  have := List.sizeOf_lt_of_mem c.2
  simp only [SNode.node.sizeOf_spec]
  omega

omit [LinearOrderedField α] in
/-- The deep copy is value-identical to the original. -/
theorem copy_eq (t : SNode α) : copy t = t := by
  induction t using SNode.inductionOn with
  | h op v ch ih =>
    unfold copy
    simp only [SNode.node.injEq, true_and]
    have hmap : ch.attach.map (fun c => copy c.1) = ch.attach.map (fun c => c.1) :=
      List.map_congr_left (fun c _ => ih c.1 c.2)
    rw [hmap, List.attach_map_subtype_val]

/-- The C function `syntax_node_derive` (syntax_node.c:625) and the
handlers of `derivation_table`. Each handler allocates fresh nodes whose
payloads are the literals the C passes to `syntax_node_construct` (0.0
almost everywhere; the tangent rule constructs its power and cosine nodes
with payload 1.0). Sub-expressions reused undifferentiated are deep
copies. The table maps `OP_PI` and `OP_E` to `derive_number`, whose
`assert(node->operator_value == OP_NUMBER)` fails for them; braces and
the unknown tag map to `derive_failure`, which is `assert(0)`. In the
power rule the derivative of the exponent is built before the
`syntax_node_is_constant` test discards it, so its effects (assertion
failures in sub-derivations) still occur. In the exponential rule the C
passes a copy of the child — not of the whole node — as the second
factor (derive_exp, syntax_node.c:745). -/
def derive : SNode α → Except CErr (SNode α)
  | .node .number _ _ => .ok (.node .number 0 [])
  | .node .xvar _ _ => .ok (.node .number 1 [])
  | .node .pi _ _ => .error .asserted
  | .node .e _ _ => .error .asserted
  | .node .unknown _ _ => .error .asserted
  | .node .leftBrace _ _ => .error .asserted
  | .node .rightBrace _ _ => .error .asserted
  | .node .negate _ [c] => do
      let d ← derive c
      .ok (.node .negate 0 [d])
  | .node .plus _ [c0, c1] => do
      let d0 ← derive c0
      let d1 ← derive c1
      .ok (.node .plus 0 [d0, d1])
  | .node .minus _ [c0, c1] => do
      let d0 ← derive c0
      let d1 ← derive c1
      .ok (.node .minus 0 [d0, d1])
  | .node .times _ [c0, c1] => do
      let d0 ← derive c0
      let d1 ← derive c1
      .ok (.node .plus 0 [.node .times 0 [d0, copy c1], .node .times 0 [copy c0, d1]])
  | .node .divide _ [c0, c1] => do
      let d0 ← derive c0
      let d1 ← derive c1
      .ok (.node .divide 0
        [.node .minus 0
          [.node .times 0 [d0, copy c1], .node .times 0 [copy c0, d1]],
         .node .times 0 [copy c1, copy c1]])
  | .node .power _ [c0, c1] => do
      let d0 ← derive c0
      let d1 ← derive c1
      .ok (.node .times 0
        [.node .power 0 [copy c0, copy c1],
         .node .plus 0
          [.node .times 0 [.node .divide 0 [d0, copy c0], copy c1],
           if is_constant c1 then .node .number 0 []
           else .node .times 0 [.node .ln 0 [copy c0], d1]]])
  | .node .exp _ [c] => do
      let d ← derive (copy c)
      .ok (.node .times 0 [d, copy c])
  | .node .ln _ [c] => do
      let d ← derive c
      .ok (.node .times 0 [d, .node .divide 0 [.node .number 1 [], copy c]])
  | .node .sin _ [c] => do
      let d ← derive c
      .ok (.node .times 0 [d, .node .cos 0 [copy c]])
  | .node .cos _ [c] => do
      let d ← derive c
      .ok (.node .times 0 [.node .number (-1) [], .node .times 0 [.node .sin 0 [copy c], d]])
  | .node .tan _ [c] => do
      let d ← derive c
      .ok (.node .divide 0 [d, .node .power 1 [.node .cos 1 [copy c], .node .number 2 []]])
  | _ => .error .ub
termination_by t => sizeOf t
decreasing_by all_goals simp only [SNode.node.sizeOf_spec, List.cons.sizeOf_spec, copy_eq]; omega

/-- Opcode byte values, from the C enum `vm_opcodes` (opcodes.h:9). -/
def OPC_NUM : Nat := 1
def OPC_NEG : Nat := 2
def OPC_ADD : Nat := 3
def OPC_SUB : Nat := 4
def OPC_MULT : Nat := 5
def OPC_DIV : Nat := 6
def OPC_POW : Nat := 7
def OPC_EXP : Nat := 8
def OPC_LN : Nat := 9
def OPC_SIN : Nat := 10
def OPC_COS : Nat := 11
def OPC_TAN : Nat := 12
def OPC_VAR_X : Nat := 13
def OPC_PI : Nat := 14
def OPC_E : Nat := 15

/-- The C array `operator_to_opcode` (backend.c:25). It has no designated
entries for the constants (`OP_PI`, `OP_E`), the braces or the unknown
tag, so C static initialisation leaves those entries 0 — a byte the
virtual machine does not recognise. -/
def opcodeOf : Op → Nat
  | .number => OPC_NUM
  | .negate => OPC_NEG
  | .plus => OPC_ADD
  | .minus => OPC_SUB
  | .times => OPC_MULT
  | .divide => OPC_DIV
  | .power => OPC_POW
  | .exp => OPC_EXP
  | .ln => OPC_LN
  | .sin => OPC_SIN
  | .cos => OPC_COS
  | .tan => OPC_TAN
  | .xvar => OPC_VAR_X
  | _ => 0

/-- One entry of the compiled byte buffer: `op b` is a single opcode byte
with value `b`, `num x` stands for the eight raw bytes of the double `x`
written by `write_number` (backend.c:151). -/
inductive Cell (α : Type) where
  | op (b : Nat)
  | num (x : α)
deriving DecidableEq

/-- The C function `compile_syntax_node` (backend.c:116), with the buffer
threaded through as the list of cells written so far. A number node first
writes its raw value under the assertion `code->length > 0`
(write_number, backend.c:152); then the opcode byte of the node is
written, and only after that the children are compiled left to right
(the loop over `node->arity`, backend.c:132). Buffer growth cannot fail
in the embedding. -/
def compile_node : SNode α → List (Cell α) → Except CErr (List (Cell α))
  | .node op v ch, code =>
    let header : Except CErr (List (Cell α)) :=
      if opcodeOf op = OPC_NUM then
        if code.length = 0 then .error .asserted
        else .ok (code ++ [Cell.num v, Cell.op (opcodeOf op)])
      else .ok (code ++ [Cell.op (opcodeOf op)])
    match op.arity, ch with
    | 0, _ => header
    | 1, [c] => do
        let code1 ← header
        compile_node c code1
    | 2, [c0, c1] => do
        let code1 ← header
        let code2 ← compile_node c0 code1
        compile_node c1 code2
    | _, _ => do
        let _ ← header
        .error .ub

/-- The C function `compiler_backend` (backend.c:89): allocates a fresh
empty code object and runs `compile_syntax_node` on the root. -/
def compiler_backend (t : SNode α) : Except CErr (List (Cell α)) :=
  compile_node t []

/-- The flat cell sequence `compile_syntax_node` appends for one subtree:
the Polish-notation encoding with the opcode byte first (preceded by the
raw value for a number literal) and then the code of the children left to
right. `compile_append` below proves the stateful compiler writes exactly
this whenever the buffer is already non-empty. -/
def emit : SNode α → List (Cell α)
  | .node op v ch =>
    let header : List (Cell α) :=
      if opcodeOf op = OPC_NUM then [Cell.num v, Cell.op (opcodeOf op)]
      else [Cell.op (opcodeOf op)]
    match op.arity, ch with
    | 0, _ => header
    | 1, [c] => header ++ emit c
    | 2, [c0, c1] => header ++ emit c0 ++ emit c1
    | _, _ => header

/-- Well-formedness: the populated child count equals the arity of the
operator at every node — the invariant the C `arity` field maintains. -/
def wf : SNode α → Bool
  | .node op _ [] => op.arity = 0
  | .node op _ [c] => op.arity = 1 && wf c
  | .node op _ [c0, c1] => op.arity = 2 && wf c0 && wf c1
  | .node _ _ _ => false

/-- No `pi` or `e` constant node anywhere in the tree: `operator_to_opcode`
maps both to the unrecognised byte 0, so only trees without them compile
to executable code. -/
def no_const_nodes : SNode α → Bool
  | .node op _ [] => !(op = .pi || op = .e)
  | .node op _ [c] => !(op = .pi || op = .e) && no_const_nodes c
  | .node op _ [c0, c1] => !(op = .pi || op = .e) && no_const_nodes c0 && no_const_nodes c1
  | .node _ _ _ => false

/-- How `machine_execute` can fail: `reported` is the int error code 1
returned to the caller (an unknown opcode whose error flag is observed —
see the default arm of `exec_go` — or a growth failure, which the
embedding never produces), `asserted` is a failed assert inside vm.c
(stack underflow on pop, or reaching the final count assertion at
vm.c:171 with a stack count other than one), and `ub` marks byte reads
the C leaves undefined (a raw number byte decoded as an opcode, or
opcode bytes reinterpreted as a double). -/
inductive VMErr where
  | reported
  | asserted
  | ub
deriving DecidableEq

/-- The byte-by-byte scan of `machine_execute` (vm.c:141). The C walks the
code from its last byte to its first; the embedding reverses the code
once and recurses forward. The operand stack is a list with its head the
top; the first pop of a binary operator is `tmp[0]`, the second `tmp[1]`,
and the pushed results are exactly the C expressions of the switch
(vm.c:146): in particular `OPC_DIV` divides without testing the divisor.
`OPC_NUM` takes the eight bytes preceding the opcode as the value.
The default arm for an unknown opcode only sets `error = 1` (vm.c:168);
the flag is tested at the top of the NEXT iteration (vm.c:142), so with
bytes still remaining the scan stops and returns 1, while at the first
byte of the buffer the loop simply ends and control falls through to
`assert(stack.count == 1)` (vm.c:171): that assertion aborts unless
exactly one number is on the stack, and when it holds the result is
stored but the error code 1 is still returned. -/
def exec_go (M : MathFns α) (x : α) : List (Cell α) → List α → Except VMErr (List α)
  | [], stack => .ok stack
  | Cell.num _ :: _, _ => .error .ub
  | Cell.op b :: rest, stack =>
    if b = OPC_NUM then
      match rest with
      | Cell.num d :: rest1 => exec_go M x rest1 (d :: stack)
      | _ => .error .ub
    else if b = OPC_NEG then
      match stack with
      | a :: s => exec_go M x rest (-a :: s)
      | _ => .error .asserted
    else if b = OPC_ADD then
      match stack with
      | a :: a1 :: s => exec_go M x rest ((a + a1) :: s)
      | _ => .error .asserted
    else if b = OPC_SUB then
      match stack with
      | a :: a1 :: s => exec_go M x rest ((a - a1) :: s)
      | _ => .error .asserted
    else if b = OPC_MULT then
      match stack with
      | a :: a1 :: s => exec_go M x rest ((a * a1) :: s)
      | _ => .error .asserted
    else if b = OPC_DIV then
      match stack with
      | a :: a1 :: s => exec_go M x rest ((a / a1) :: s)
      | _ => .error .asserted
    else if b = OPC_POW then
      match stack with
      | a :: a1 :: s => exec_go M x rest (M.fpow a a1 :: s)
      | _ => .error .asserted
    else if b = OPC_EXP then
      match stack with
      | a :: s => exec_go M x rest (M.fexp a :: s)
      | _ => .error .asserted
    else if b = OPC_LN then
      match stack with
      | a :: s => exec_go M x rest (M.flog a :: s)
      | _ => .error .asserted
    else if b = OPC_SIN then
      match stack with
      | a :: s => exec_go M x rest (M.fsin a :: s)
      | _ => .error .asserted
    else if b = OPC_COS then
      match stack with
      | a :: s => exec_go M x rest (M.fcos a :: s)
      | _ => .error .asserted
    else if b = OPC_TAN then
      match stack with
      | a :: s => exec_go M x rest (M.ftan a :: s)
      | _ => .error .asserted
    else if b = OPC_VAR_X then exec_go M x rest (x :: stack)
    else if b = OPC_PI then exec_go M x rest (M.cpi :: stack)
    else if b = OPC_E then exec_go M x rest (M.ce :: stack)
    else
      if rest.isEmpty then
        if stack.length = 1 then .error .reported else .error .asserted
      else .error .reported

/-- The C function `machine_execute` (vm.c:101): scan the loaded code
backwards, then `assert(stack.count == 1)` (vm.c:171) and return the one
remaining number. -/
def machine_execute (M : MathFns α) (x : α) (code : List (Cell α)) : Except VMErr α := do
  let stack ← exec_go M x code.reverse []
  match stack with
  | [v] => .ok v
  | _ => .error .asserted

/-- The C helper `token_is_function` (parser.c:344). -/
def token_is_function (t : Op) : Bool :=
  t = .exp || t = .ln || t = .sin || t = .cos || t = .tan

/-- The C helper `token_is_operator` (parser.c:348). -/
def token_is_operator (t : Op) : Bool :=
  t = .negate || t = .plus || t = .minus || t = .times || t = .divide || t = .power

/-- The C helper `token_is_constant` (parser.c:352). -/
def token_is_constant (t : Op) : Bool :=
  t = .pi || t = .e

/-- The C helper `token_is_variable` (parser.c:356). -/
def token_is_variable (t : Op) : Bool :=
  t = .xvar

/-- The C helper `op_assoc` (parser.c:360): true means right-associative
(power, negation and the functions), false left-associative. -/
def op_assoc (t : Op) : Bool :=
  t = .power || t = .negate || token_is_function t

/-- Parser state: the operand stack and the operator stack (parser.h via
parser.c:200), each a list of nodes with its head the top of the stack.
The `previous_node` member is recorded by `parser_parse_node` but never
read, so it is not carried. -/
structure PState (α : Type) where
  operands : List (SNode α)
  operators : List (SNode α)

/-- The C function `pop_operator` (parser.c:364): pop one operator node,
pop as many operands as its arity — back to front, so the first pop
becomes the last child — install them as its children, and push the
completed node onto the operand stack. Popping from an empty stack prints
and exits(1) (syntax_node_stack_pop, parser.c:169, and the explicit
operand check at parser.c:370). -/
def pop_operator (st : PState α) : Except CErr (PState α) :=
  match st.operators with
  | [] => .error (.exited 1)
  | opNode :: ops =>
    if st.operands.length < opNode.op.arity then .error (.exited 1)
    else .ok ⟨.node opNode.op opNode.val ((st.operands.take opNode.op.arity).reverse)
                :: st.operands.drop opNode.op.arity,
              ops⟩

/-- The while loop of `parser_parse_node` for operator tokens
(parser.c:250), with fuel one more than the operator stack depth (each
iteration pops one operator, so the fuel is never exhausted when called
with that bound; the fuel-0 branch is unreachable). Before comparing
precedences the C asserts both are non-zero (parser.c:256), which fires
in particular when the top of the operator stack is a left brace. When
the top operator binds at least as tightly — not-right-associative
incoming with precedence less than or equal to the top, or
right-associative incoming with strictly smaller precedence — it is
popped and reduced; otherwise the loop ends and the incoming token is
pushed. -/
def shunt_go (tok : SNode α) : Nat → PState α → Except CErr (PState α)
  | 0, _ => .error .ub
  | fuel + 1, st =>
    match st.operators with
    | [] => .ok ⟨st.operands, [tok]⟩
    | top :: _ =>
      if tok.op.precedence = 0 ∨ top.op.precedence = 0 then .error .asserted
      else if (op_assoc tok.op = false ∧ tok.op.precedence ≤ top.op.precedence)
           ∨ (op_assoc tok.op = true ∧ tok.op.precedence < top.op.precedence) then do
        let st1 ← pop_operator st
        shunt_go tok fuel st1
      else .ok ⟨st.operands, tok :: st.operators⟩

/-- The right-brace loop of `parser_parse_node` (parser.c:303), with fuel
one more than the operator stack depth. Operators are popped and reduced
until a left brace appears on top; the brace is discarded, and if the new
top is a function token it is reduced as well. Emptying the stack without
finding the brace prints and exits(1). -/
def rbrace_go : Nat → PState α → Except CErr (PState α)
  | 0, _ => .error (.exited 1)
  | fuel + 1, st =>
    match st.operators with
    | [] => .error (.exited 1)
    | top :: rest =>
      if top.op = .leftBrace then
        let st1 : PState α := ⟨st.operands, rest⟩
        match rest with
        | f :: _ => if token_is_function f.op then pop_operator st1 else .ok st1
        | [] => .ok st1
      else do
        let st1 ← pop_operator st
        rbrace_go fuel st1

/-- The C function `parser_parse_node` (parser.c:231): numbers, constants
and the variable go to the operand stack; functions and a left brace go
to the operator stack; arithmetic operator tokens run the
precedence-compare loop and are then pushed; a right brace unwinds to its
matching left brace; any other tag (`OP_UNKNOWN`) prints and exits(1). -/
def parse_node (st : PState α) (tok : SNode α) : Except CErr (PState α) :=
  let t := tok.op
  if t = .number || token_is_constant t || token_is_variable t then
    .ok ⟨tok :: st.operands, st.operators⟩
  else if token_is_function t then
    .ok ⟨st.operands, tok :: st.operators⟩
  else if token_is_operator t then
    shunt_go tok (st.operators.length + 1) st
  else if t = .leftBrace then
    .ok ⟨st.operands, tok :: st.operators⟩
  else if t = .rightBrace then
    rbrace_go (st.operators.length + 1) st
  else .error (.exited 1)

/-- The C function `pop_operator_stack` (parser.c:332), called by
`parser_finish`: pop and reduce every remaining operator, with fuel equal
to the operator stack depth (one operator is consumed per iteration).
Finding a left brace at this stage prints and exits(1). -/
def drain_go : Nat → PState α → Except CErr (PState α)
  | 0, st => .ok st
  | fuel + 1, st =>
    match st.operators with
    | [] => .ok st
    | top :: _ =>
      if top.op = .leftBrace then .error (.exited 1)
      else do
        let st1 ← pop_operator st
        drain_go fuel st1

/-- The C function `parser_finish` (parser.c:208): reduce all remaining
operators, then test the operand stack top index against 1
(`if (p->operand_stack->top > 1)`, parser.c:218) — i.e. only three or
more leftover operands are rejected — and otherwise return the top of
the operand stack (`NULL`, here `none`, when it is empty). -/
def parser_finish (st : PState α) : Except CErr (Option (SNode α)) := do
  let st1 ← drain_go st.operators.length st
  if st1.operands.length > 2 then .ok none
  else .ok st1.operands.head?

/-- One full parse: feed the tokens in stream order through
`parser_parse_node`, then call `parser_finish`. -/
def parse_tokens (toks : List (SNode α)) : Except CErr (Option (SNode α)) := do
  let st ← toks.foldlM parse_node ⟨[], []⟩
  parser_finish st

/-- The iteration cap `MAX_ITERATIONS` (method.c:14). -/
def MAX_ITERATIONS : Nat := 100

/-- The convergence bound `EPSILON` (method.c:23), the source literal
0.0000001 read exactly. -/
def EPSILON : α := 1 / 10000000

/-- The do-while loop of `method_iterate` (method.c:32), with the fuel
counting the iterations still allowed. Each pass executes the function
code at the current binding; a reported execution error becomes exit
status 1 for the caller (an assertion inside the machine still aborts);
a residual below `EPSILON` in absolute value ends the iteration with
status 0; otherwise the derivative code is executed and the binding is
updated by `x - f_xn / d_xn` with no check of `d_xn` against zero
(method.c:42). Exhausting the cap yields status -1 with the current
binding (method.c:50). -/
def method_go (M : MathFns α) (fcode dcode : List (Cell α)) : Nat → α → Except CErr (α × Int)
  | 0, x => .ok (x, -1)
  | fuel + 1, x =>
    match machine_execute M x fcode with
    | .error .reported => .ok (x, 1)
    | .error .asserted => .error .asserted
    | .error .ub => .error .ub
    | .ok fx =>
      if |fx| < EPSILON then .ok (x, 0)
      else
        match machine_execute M x dcode with
        | .error .reported => .ok (x, 1)
        | .error .asserted => .error .asserted
        | .error .ub => .error .ub
        | .ok dx => method_go M fcode dcode fuel (x - fx / dx)

/-- The C function `method_iterate` (method.c:25): run the loop with the
full iteration budget from the initial guess, returning the final value
of the variable register together with the exit status stored through
the error out-parameter. -/
def method_iterate (M : MathFns α) (fcode dcode : List (Cell α)) (guess : α) :
    Except CErr (α × Int) :=
  method_go M fcode dcode MAX_ITERATIONS guess

/-- The real-number instantiation of the libm bundle: `pow` is the real
power `Real.rpow`, `PI` and `E` (newton.h) denote the constants they
approximate. -/
noncomputable def realFns : MathFns ℝ :=
  ⟨Real.exp, Real.log, Real.sin, Real.cos, Real.tan,
   fun a b => Real.rpow a b, Real.pi, Real.exp 1⟩

/-- A computable rational instantiation used to evaluate the development
on concrete inputs: the transcendental slots are junk constants (never
reached by the inputs they are used with), and `pow` is exponentiation
restricted to non-negative integer exponents. -/
def qFns : MathFns ℚ :=
  ⟨fun _ => 0, fun _ => 0, fun _ => 0, fun _ => 0, fun _ => 0,
   fun a b => if b.den = 1 ∧ 0 ≤ b.num then a ^ b.num.toNat else 0, 0, 0⟩

omit [LinearOrderedField α] in
/-- Opcode 1 is written exactly for number nodes. -/
theorem opcode_num_iff (op : Op) : opcodeOf op = OPC_NUM ↔ op = .number := by
  cases op <;> decide

omit [LinearOrderedField α] in
/-- Equation for compiling an arity-0 node other than a number literal:
one opcode byte is appended and the child loop is empty. -/
theorem compile_node_eq0 (op : Op) (pv : α) (ch : List (SNode α)) (code : List (Cell α))
    (h0 : op.arity = 0) (hnum : op ≠ .number) :
    compile_node (.node op pv ch) code = .ok (code ++ [Cell.op (opcodeOf op)]) := by
  cases op <;> first
    | exact absurd h0 (by decide)
    | exact absurd rfl hnum
    | rfl

omit [LinearOrderedField α] in
/-- Equation for compiling a number node with a non-empty buffer: the raw
value and then the number opcode are appended. -/
theorem compile_node_num (pv : α) (ch : List (SNode α)) (code : List (Cell α))
    (hne : code.length ≠ 0) :
    compile_node (.node .number pv ch) code =
      .ok (code ++ [Cell.num pv, Cell.op OPC_NUM]) := by
  simp [compile_node, hne, Op.arity, opcodeOf, OPC_NUM]

omit [LinearOrderedField α] in
/-- Equation for compiling a number node with an empty buffer: the
assertion `code->length > 0` of `write_number` fails. -/
theorem compile_node_num_empty (pv : α) (ch : List (SNode α)) :
    compile_node (.node .number pv ch) ([] : List (Cell α)) = .error .asserted := by
  simp [compile_node, Op.arity, opcodeOf, OPC_NUM]

omit [LinearOrderedField α] in
/-- Equation for compiling an arity-1 node: the opcode byte, then the
child. -/
theorem compile_node_eq1 (op : Op) (pv : α) (c : SNode α) (code : List (Cell α))
    (h1 : op.arity = 1) :
    compile_node (.node op pv [c]) code =
      compile_node c (code ++ [Cell.op (opcodeOf op)]) := by
  cases op <;> first
    | exact absurd h1 (by decide)
    | rfl

omit [LinearOrderedField α] in
/-- Equation for compiling an arity-2 node: the opcode byte, then the two
children left to right. -/
theorem compile_node_eq2 (op : Op) (pv : α) (c0 c1 : SNode α) (code : List (Cell α))
    (h2 : op.arity = 2) :
    compile_node (.node op pv [c0, c1]) code =
      (do
        let code2 ← compile_node c0 (code ++ [Cell.op (opcodeOf op)])
        compile_node c1 code2) := by
  cases op <;> first
    | exact absurd h2 (by decide)
    | rfl

omit [LinearOrderedField α] in
/-- Flat emission of an arity-0 node other than a number literal. -/
theorem emit_eq0 (op : Op) (pv : α) (ch : List (SNode α))
    (h0 : op.arity = 0) (hnum : op ≠ .number) :
    emit (.node op pv ch) = [Cell.op (opcodeOf op)] := by
  cases op <;> first
    | exact absurd h0 (by decide)
    | exact absurd rfl hnum
    | rfl

omit [LinearOrderedField α] in
/-- Flat emission of a number node. -/
theorem emit_num (pv : α) (ch : List (SNode α)) :
    emit (.node .number pv ch) = [Cell.num pv, Cell.op OPC_NUM] := by
  rfl

omit [LinearOrderedField α] in
/-- Flat emission of an arity-1 node. -/
theorem emit_eq1 (op : Op) (pv : α) (c : SNode α) (h1 : op.arity = 1) :
    emit (.node op pv [c]) = Cell.op (opcodeOf op) :: emit c := by
  cases op <;> first
    | exact absurd h1 (by decide)
    | rfl

omit [LinearOrderedField α] in
/-- Flat emission of an arity-2 node. -/
theorem emit_eq2 (op : Op) (pv : α) (c0 c1 : SNode α) (h2 : op.arity = 2) :
    emit (.node op pv [c0, c1]) = Cell.op (opcodeOf op) :: (emit c0 ++ emit c1) := by
  cases op <;> first
    | exact absurd h2 (by decide)
    | rfl

omit [LinearOrderedField α] in
/-- Whenever the buffer already holds at least one cell, the stateful
compiler succeeds and appends exactly the flat Polish emission of the
subtree. -/
theorem compile_append (t : SNode α) :
    ∀ code : List (Cell α), wf t = true → code ≠ [] →
      compile_node t code = .ok (code ++ emit t) := by
  induction t using SNode.inductionOn with
  | h op pv ch ih =>
    intro code hwf hne
    have hlen : code.length ≠ 0 := by
      simpa [List.length_eq_zero] using hne
    match ch with
    | [] =>
      have harity : op.arity = 0 := by simpa [wf] using hwf
      by_cases hnum : op = .number
      · subst hnum
        rw [compile_node_num pv [] code hlen, emit_num]
      · rw [compile_node_eq0 op pv [] code harity hnum, emit_eq0 op pv [] harity hnum]
    | [c0] =>
      simp only [wf, Bool.and_eq_true, decide_eq_true_eq] at hwf
      have harity : op.arity = 1 := hwf.1
      have hwf0 : wf c0 = true := hwf.2
      have hstep := ih c0 (by simp) (code ++ [Cell.op (opcodeOf op)]) hwf0 (by simp)
      rw [compile_node_eq1 op pv c0 code harity, hstep, emit_eq1 op pv c0 harity]
      simp
    | [c0, c1] =>
      simp only [wf, Bool.and_eq_true, decide_eq_true_eq] at hwf
      have harity : op.arity = 2 := hwf.1.1
      have hwf0 : wf c0 = true := hwf.1.2
      have hwf1 : wf c1 = true := hwf.2
      have hstep0 := ih c0 (by simp) (code ++ [Cell.op (opcodeOf op)]) hwf0 (by simp)
      have hstep1 :=
        ih c1 (by simp) (code ++ [Cell.op (opcodeOf op)] ++ emit c0) hwf1 (by simp)
      rw [compile_node_eq2 op pv c0 c1 code harity, hstep0]
      show compile_node c1 (code ++ [Cell.op (opcodeOf op)] ++ emit c0) = _
      rw [hstep1, emit_eq2 op pv c0 c1 harity]
      simp
    | _ :: _ :: _ :: _ =>
      simp [wf] at hwf


/-- Inversion for a successful Except bind. -/
theorem bind_ok_inv {β γ : Type} {mx : Except CErr β} {f : β → Except CErr γ} {w : γ}
    (h : (mx >>= f) = .ok w) : ∃ a, mx = .ok a ∧ f a = .ok w := by
  cases mx with
  | error err => exact Except.noConfusion h
  | ok a => exact ⟨a, rfl, h⟩

/-- Executing the reverse of the emitted code of a subtree against any
continuation and stack pushes exactly the value tree evaluation returns,
whenever evaluation succeeds and the tree is well-formed with no pi or e
constant nodes. -/
theorem exec_emit (M : MathFns α) (x : α) (t : SNode α) :
    ∀ (w : α) (rest : List (Cell α)) (stack : List α),
      wf t = true → no_const_nodes t = true → operate M t x = .ok w →
      exec_go M x ((emit t).reverse ++ rest) stack = exec_go M x rest (w :: stack) := by
  induction t using SNode.inductionOn with
  | h op pv ch ih =>
    intro w rest stack hwf hnc hev
    match ch with
    | [] =>
      cases op with
      | number =>
        simp only [operate, Except.ok.injEq] at hev
        subst hev
        rw [emit_num]
        show exec_go M x (Cell.op OPC_NUM :: Cell.num pv :: rest) stack = _
        conv_lhs => rw [exec_go.eq_def]
        simp [OPC_NUM]
      | xvar =>
        simp only [operate, Except.ok.injEq] at hev
        subst hev
        rw [emit_eq0 .xvar pv [] (by decide) (by decide)]
        show exec_go M x (Cell.op (opcodeOf .xvar) :: rest) stack = _
        conv_lhs => rw [exec_go.eq_def]
        simp [opcodeOf, OPC_NUM, OPC_NEG, OPC_ADD, OPC_SUB, OPC_MULT, OPC_DIV, OPC_POW, OPC_EXP, OPC_LN, OPC_SIN, OPC_COS, OPC_TAN, OPC_VAR_X, OPC_PI, OPC_E]
      | pi => simp [no_const_nodes] at hnc
      | e => simp [no_const_nodes] at hnc
      | unknown => simp [operate] at hev
      | leftBrace => simp [operate] at hev
      | rightBrace => simp [operate] at hev
      | negate => simp [wf, Op.arity] at hwf
      | exp => simp [wf, Op.arity] at hwf
      | ln => simp [wf, Op.arity] at hwf
      | sin => simp [wf, Op.arity] at hwf
      | cos => simp [wf, Op.arity] at hwf
      | tan => simp [wf, Op.arity] at hwf
      | plus => simp [wf, Op.arity] at hwf
      | minus => simp [wf, Op.arity] at hwf
      | times => simp [wf, Op.arity] at hwf
      | divide => simp [wf, Op.arity] at hwf
      | power => simp [wf, Op.arity] at hwf
    | [c0] =>
      cases op with
      | number => simp [wf, Op.arity] at hwf
      | xvar => simp [wf, Op.arity] at hwf
      | pi => simp [wf, Op.arity] at hwf
      | e => simp [wf, Op.arity] at hwf
      | unknown => simp [wf, Op.arity] at hwf
      | leftBrace => simp [wf, Op.arity] at hwf
      | rightBrace => simp [wf, Op.arity] at hwf
      | plus => simp [wf, Op.arity] at hwf
      | minus => simp [wf, Op.arity] at hwf
      | times => simp [wf, Op.arity] at hwf
      | divide => simp [wf, Op.arity] at hwf
      | power => simp [wf, Op.arity] at hwf
      | negate =>
        simp only [wf, Op.arity] at hwf
        simp only [no_const_nodes] at hnc
        simp only [operate] at hev
        obtain ⟨a, h0, h1⟩ := bind_ok_inv hev
        simp only [Except.ok.injEq] at h1
        subst h1
        rw [emit_eq1 .negate pv c0 (by decide)]
        simp only [List.reverse_cons, List.append_assoc, List.singleton_append]
        rw [ih c0 (by simp) a _ stack (by simpa using hwf) (by simpa using hnc) h0]
        conv_lhs => rw [exec_go.eq_def]
        simp [opcodeOf, OPC_NUM, OPC_NEG, OPC_ADD, OPC_SUB, OPC_MULT, OPC_DIV, OPC_POW, OPC_EXP, OPC_LN, OPC_SIN, OPC_COS, OPC_TAN, OPC_VAR_X, OPC_PI, OPC_E, neg_one_mul]
      | exp =>
        simp only [wf, Op.arity] at hwf
        simp only [no_const_nodes] at hnc
        simp only [operate] at hev
        obtain ⟨a, h0, h1⟩ := bind_ok_inv hev
        simp only [Except.ok.injEq] at h1
        subst h1
        rw [emit_eq1 .exp pv c0 (by decide)]
        simp only [List.reverse_cons, List.append_assoc, List.singleton_append]
        rw [ih c0 (by simp) a _ stack (by simpa using hwf) (by simpa using hnc) h0]
        conv_lhs => rw [exec_go.eq_def]
        simp [opcodeOf, OPC_NUM, OPC_NEG, OPC_ADD, OPC_SUB, OPC_MULT, OPC_DIV, OPC_POW, OPC_EXP, OPC_LN, OPC_SIN, OPC_COS, OPC_TAN, OPC_VAR_X, OPC_PI, OPC_E]
      | ln =>
        simp only [wf, Op.arity] at hwf
        simp only [no_const_nodes] at hnc
        simp only [operate] at hev
        obtain ⟨a, h0, h1⟩ := bind_ok_inv hev
        simp only [Except.ok.injEq] at h1
        subst h1
        rw [emit_eq1 .ln pv c0 (by decide)]
        simp only [List.reverse_cons, List.append_assoc, List.singleton_append]
        rw [ih c0 (by simp) a _ stack (by simpa using hwf) (by simpa using hnc) h0]
        conv_lhs => rw [exec_go.eq_def]
        simp [opcodeOf, OPC_NUM, OPC_NEG, OPC_ADD, OPC_SUB, OPC_MULT, OPC_DIV, OPC_POW, OPC_EXP, OPC_LN, OPC_SIN, OPC_COS, OPC_TAN, OPC_VAR_X, OPC_PI, OPC_E]
      | sin =>
        simp only [wf, Op.arity] at hwf
        simp only [no_const_nodes] at hnc
        simp only [operate] at hev
        obtain ⟨a, h0, h1⟩ := bind_ok_inv hev
        simp only [Except.ok.injEq] at h1
        subst h1
        rw [emit_eq1 .sin pv c0 (by decide)]
        simp only [List.reverse_cons, List.append_assoc, List.singleton_append]
        rw [ih c0 (by simp) a _ stack (by simpa using hwf) (by simpa using hnc) h0]
        conv_lhs => rw [exec_go.eq_def]
        simp [opcodeOf, OPC_NUM, OPC_NEG, OPC_ADD, OPC_SUB, OPC_MULT, OPC_DIV, OPC_POW, OPC_EXP, OPC_LN, OPC_SIN, OPC_COS, OPC_TAN, OPC_VAR_X, OPC_PI, OPC_E]
      | cos =>
        simp only [wf, Op.arity] at hwf
        simp only [no_const_nodes] at hnc
        simp only [operate] at hev
        obtain ⟨a, h0, h1⟩ := bind_ok_inv hev
        simp only [Except.ok.injEq] at h1
        subst h1
        rw [emit_eq1 .cos pv c0 (by decide)]
        simp only [List.reverse_cons, List.append_assoc, List.singleton_append]
        rw [ih c0 (by simp) a _ stack (by simpa using hwf) (by simpa using hnc) h0]
        conv_lhs => rw [exec_go.eq_def]
        simp [opcodeOf, OPC_NUM, OPC_NEG, OPC_ADD, OPC_SUB, OPC_MULT, OPC_DIV, OPC_POW, OPC_EXP, OPC_LN, OPC_SIN, OPC_COS, OPC_TAN, OPC_VAR_X, OPC_PI, OPC_E]
      | tan =>
        simp only [wf, Op.arity] at hwf
        simp only [no_const_nodes] at hnc
        simp only [operate] at hev
        obtain ⟨a, h0, h1⟩ := bind_ok_inv hev
        simp only [Except.ok.injEq] at h1
        subst h1
        rw [emit_eq1 .tan pv c0 (by decide)]
        simp only [List.reverse_cons, List.append_assoc, List.singleton_append]
        rw [ih c0 (by simp) a _ stack (by simpa using hwf) (by simpa using hnc) h0]
        conv_lhs => rw [exec_go.eq_def]
        simp [opcodeOf, OPC_NUM, OPC_NEG, OPC_ADD, OPC_SUB, OPC_MULT, OPC_DIV, OPC_POW, OPC_EXP, OPC_LN, OPC_SIN, OPC_COS, OPC_TAN, OPC_VAR_X, OPC_PI, OPC_E]
    | [c0, c1] =>
      cases op with
      | number => simp [wf, Op.arity] at hwf
      | xvar => simp [wf, Op.arity] at hwf
      | pi => simp [wf, Op.arity] at hwf
      | e => simp [wf, Op.arity] at hwf
      | unknown => simp [wf, Op.arity] at hwf
      | leftBrace => simp [wf, Op.arity] at hwf
      | rightBrace => simp [wf, Op.arity] at hwf
      | negate => simp [wf, Op.arity] at hwf
      | exp => simp [wf, Op.arity] at hwf
      | ln => simp [wf, Op.arity] at hwf
      | sin => simp [wf, Op.arity] at hwf
      | cos => simp [wf, Op.arity] at hwf
      | tan => simp [wf, Op.arity] at hwf
      | plus =>
        simp only [wf, Op.arity, Bool.and_eq_true] at hwf
        simp only [no_const_nodes, Bool.and_eq_true] at hnc
        simp only [operate] at hev
        obtain ⟨a, h0, h1⟩ := bind_ok_inv hev
        obtain ⟨b, hb0, h2⟩ := bind_ok_inv h1
        simp only [Except.ok.injEq] at h2
        subst h2
        rw [emit_eq2 .plus pv c0 c1 (by decide)]
        simp only [List.reverse_cons, List.reverse_append, List.append_assoc,
          List.singleton_append]
        rw [ih c1 (by simp) b _ stack (by simpa using hwf.2) (by simpa using hnc.2) hb0]
        rw [ih c0 (by simp) a _ (b :: stack) (by simpa using hwf.1) (by simpa using hnc.1) h0]
        conv_lhs => rw [exec_go.eq_def]
        simp [opcodeOf, OPC_NUM, OPC_NEG, OPC_ADD, OPC_SUB, OPC_MULT, OPC_DIV, OPC_POW, OPC_EXP, OPC_LN, OPC_SIN, OPC_COS, OPC_TAN, OPC_VAR_X, OPC_PI, OPC_E]
      | minus =>
        simp only [wf, Op.arity, Bool.and_eq_true] at hwf
        simp only [no_const_nodes, Bool.and_eq_true] at hnc
        simp only [operate] at hev
        obtain ⟨a, h0, h1⟩ := bind_ok_inv hev
        obtain ⟨b, hb0, h2⟩ := bind_ok_inv h1
        simp only [Except.ok.injEq] at h2
        subst h2
        rw [emit_eq2 .minus pv c0 c1 (by decide)]
        simp only [List.reverse_cons, List.reverse_append, List.append_assoc,
          List.singleton_append]
        rw [ih c1 (by simp) b _ stack (by simpa using hwf.2) (by simpa using hnc.2) hb0]
        rw [ih c0 (by simp) a _ (b :: stack) (by simpa using hwf.1) (by simpa using hnc.1) h0]
        conv_lhs => rw [exec_go.eq_def]
        simp [opcodeOf, OPC_NUM, OPC_NEG, OPC_ADD, OPC_SUB, OPC_MULT, OPC_DIV, OPC_POW, OPC_EXP, OPC_LN, OPC_SIN, OPC_COS, OPC_TAN, OPC_VAR_X, OPC_PI, OPC_E]
      | times =>
        simp only [wf, Op.arity, Bool.and_eq_true] at hwf
        simp only [no_const_nodes, Bool.and_eq_true] at hnc
        simp only [operate] at hev
        obtain ⟨a, h0, h1⟩ := bind_ok_inv hev
        obtain ⟨b, hb0, h2⟩ := bind_ok_inv h1
        simp only [Except.ok.injEq] at h2
        subst h2
        rw [emit_eq2 .times pv c0 c1 (by decide)]
        simp only [List.reverse_cons, List.reverse_append, List.append_assoc,
          List.singleton_append]
        rw [ih c1 (by simp) b _ stack (by simpa using hwf.2) (by simpa using hnc.2) hb0]
        rw [ih c0 (by simp) a _ (b :: stack) (by simpa using hwf.1) (by simpa using hnc.1) h0]
        conv_lhs => rw [exec_go.eq_def]
        simp [opcodeOf, OPC_NUM, OPC_NEG, OPC_ADD, OPC_SUB, OPC_MULT, OPC_DIV, OPC_POW, OPC_EXP, OPC_LN, OPC_SIN, OPC_COS, OPC_TAN, OPC_VAR_X, OPC_PI, OPC_E]
      | divide =>
        simp only [wf, Op.arity, Bool.and_eq_true] at hwf
        simp only [no_const_nodes, Bool.and_eq_true] at hnc
        simp only [operate] at hev
        obtain ⟨b, hb0, h1⟩ := bind_ok_inv hev
        by_cases hz : b = 0
        · rw [if_pos hz] at h1
          exact Except.noConfusion h1
        · rw [if_neg hz] at h1
          obtain ⟨a, h0, h2⟩ := bind_ok_inv h1
          simp only [Except.ok.injEq] at h2
          subst h2
          rw [emit_eq2 .divide pv c0 c1 (by decide)]
          simp only [List.reverse_cons, List.reverse_append, List.append_assoc,
            List.singleton_append]
          rw [ih c1 (by simp) b _ stack (by simpa using hwf.2) (by simpa using hnc.2) hb0]
          rw [ih c0 (by simp) a _ (b :: stack) (by simpa using hwf.1)
            (by simpa using hnc.1) h0]
          conv_lhs => rw [exec_go.eq_def]
          simp [opcodeOf, OPC_NUM, OPC_NEG, OPC_ADD, OPC_SUB, OPC_MULT, OPC_DIV, OPC_POW, OPC_EXP, OPC_LN, OPC_SIN, OPC_COS, OPC_TAN, OPC_VAR_X, OPC_PI, OPC_E]
      | power =>
        simp only [wf, Op.arity, Bool.and_eq_true] at hwf
        simp only [no_const_nodes, Bool.and_eq_true] at hnc
        simp only [operate] at hev
        obtain ⟨a, h0, h1⟩ := bind_ok_inv hev
        obtain ⟨b, hb0, h2⟩ := bind_ok_inv h1
        simp only [Except.ok.injEq] at h2
        subst h2
        rw [emit_eq2 .power pv c0 c1 (by decide)]
        simp only [List.reverse_cons, List.reverse_append, List.append_assoc,
          List.singleton_append]
        rw [ih c1 (by simp) b _ stack (by simpa using hwf.2) (by simpa using hnc.2) hb0]
        rw [ih c0 (by simp) a _ (b :: stack) (by simpa using hwf.1) (by simpa using hnc.1) h0]
        conv_lhs => rw [exec_go.eq_def]
        simp [opcodeOf, OPC_NUM, OPC_NEG, OPC_ADD, OPC_SUB, OPC_MULT, OPC_DIV, OPC_POW, OPC_EXP, OPC_LN, OPC_SIN, OPC_COS, OPC_TAN, OPC_VAR_X, OPC_PI, OPC_E]
    | _ :: _ :: _ :: _ => simp [wf] at hwf

/-- Executing the whole emitted code of a tree returns exactly the value
tree evaluation returns, under the same hypotheses as `exec_emit`. -/
theorem machine_execute_emit (M : MathFns α) (x : α) (t : SNode α) (w : α)
    (hwf : wf t = true) (hnc : no_const_nodes t = true)
    (hev : operate M t x = .ok w) :
    machine_execute M x (emit t) = .ok w := by
  have h := exec_emit M x t w [] [] hwf hnc hev
  rw [List.append_nil] at h
  unfold machine_execute
  rw [h]
  conv_lhs => rw [exec_go.eq_def]
  rfl

/-- The compiler writes exactly the emitted code of a root whose operator
is not a number literal. -/
theorem compiler_backend_emit (t : SNode α) (hwf : wf t = true)
    (hroot : t.op ≠ .number) : compiler_backend t = .ok (emit t) := by
  match t with
  | .node op pv ch =>
    have hop : op ≠ .number := hroot
    match ch with
    | [] =>
      have harity : op.arity = 0 := by simpa [wf] using hwf
      unfold compiler_backend
      rw [compile_node_eq0 op pv [] [] harity hop, emit_eq0 op pv [] harity hop]
      rfl
    | [c0] =>
      simp only [wf, Bool.and_eq_true, decide_eq_true_eq] at hwf
      unfold compiler_backend
      rw [compile_node_eq1 op pv c0 [] hwf.1,
        compile_append c0 ([] ++ [Cell.op (opcodeOf op)]) hwf.2 (by simp),
        emit_eq1 op pv c0 hwf.1]
      simp
    | [c0, c1] =>
      simp only [wf, Bool.and_eq_true, decide_eq_true_eq] at hwf
      unfold compiler_backend
      rw [compile_node_eq2 op pv c0 c1 [] hwf.1.1,
        compile_append c0 ([] ++ [Cell.op (opcodeOf op)]) hwf.1.2 (by simp)]
      show compile_node c1 ([] ++ [Cell.op (opcodeOf op)] ++ emit c0) = _
      rw [compile_append c1 ([] ++ [Cell.op (opcodeOf op)] ++ emit c0) hwf.2 (by simp),
        emit_eq2 op pv c0 c1 hwf.1.1]
      simp
    | _ :: _ :: _ :: _ => simp [wf] at hwf

/-- Execution step for the empty code suffix. -/
theorem exec_go_nil (M : MathFns α) (x : α) (stack : List α) :
    exec_go M x [] stack = .ok stack := by
  rw [exec_go.eq_def]

/-- Execution step for the division opcode: the two topmost numbers are
replaced by their quotient, with no test of the divisor. -/
theorem exec_go_div (M : MathFns α) (x : α) (rest : List (Cell α)) (a b : α) (s : List α) :
    exec_go M x (Cell.op OPC_DIV :: rest) (a :: b :: s) = exec_go M x rest ((a / b) :: s) := by
  conv_lhs => rw [exec_go.eq_def]
  simp [OPC_NUM, OPC_NEG, OPC_ADD, OPC_SUB, OPC_MULT, OPC_DIV]

/-- C10: compiling a tree that consists of a single numeric-literal root
node violates the assertion `code->length > 0` in `write_number`
(backend.c:152): `compiler_backend` starts with an empty buffer and
`compile_syntax_node` reaches `write_number` with length 0, so the
literal-at-root case is not handled at the public interface of the compiler. -/
theorem c10_literal_root_assert (v : α) :
    compiler_backend (.node .number v []) = .error .asserted := by
  unfold compiler_backend
  exact compile_node_num_empty v []

/-- C7: feeding the parser the two literal tokens 2 and 3 and finishing
leaves two operands on the operand stack, yet `parser_finish` returns the
top one (the literal 3) as the parsed tree instead of reporting a syntax
failure: the dangling-operand check `top > 1` (parser.c:218) only rejects
three or more leftovers, contradicting its own comment `if there is more
than one tree on the output stack we have a syntax error`. -/
theorem c7_finish_two_operands :
    parse_tokens [(.node .number (2 : ℚ) []), (.node .number 3 [])]
      = .ok (some (.node .number 3 [])) := by
  rfl

mutual

/-- Modelled from the spec wording for IsConstant: whether some node of
the subtree is the variable node — the property `IsConstant` is specified
to negate. -/
def contains_var : SNode α → Bool
  | .node op _ ch => op = .xvar || contains_var_list ch

/-- List companion of `contains_var`. -/
def contains_var_list : List (SNode α) → Bool
  | [] => false
  | c :: cs => contains_var c || contains_var_list cs

end

/-- C4: on the binary node `1 + x`, whose right child is the variable,
`syntax_node_is_constant` returns true — its loop body reads `operand[0]`
at every iteration (syntax_node.c:528) and never inspects the right
child — although the subtree does contain the variable node, so the
specified result is false. -/
theorem c4_is_constant_first_child_only :
    is_constant (.node .plus (0 : ℚ) [.node .number 1 [], .node .xvar 0 []]) = true ∧
    contains_var (.node .plus (0 : ℚ) [.node .number 1 [], .node .xvar 0 []]) = true := by
  constructor
  · rfl
  · simp [contains_var, contains_var_list]

/-- C5 counterexample: compiling the tree `2 + 3` writes the addition
opcode as the FIRST byte of the sequence, not after the children: the
produced buffer differs from the children-before-opcode layout the claim
describes. -/
theorem c5_counterexample :
    compiler_backend (.node .plus (0 : ℚ) [.node .number 2 [], .node .number 3 []])
      = .ok [Cell.op OPC_ADD, Cell.num 2, Cell.op OPC_NUM, Cell.num 3, Cell.op OPC_NUM] ∧
    [Cell.op OPC_ADD, Cell.num (2:ℚ), Cell.op OPC_NUM, Cell.num 3, Cell.op OPC_NUM] ≠
      emit (.node .number (2 : ℚ) []) ++ emit (.node .number (3 : ℚ) [])
        ++ [Cell.op OPC_ADD] := by
  constructor
  · rfl
  · intro h
    rw [emit_num, emit_num] at h
    exact absurd (List.head_eq_of_cons_eq h) (by decide)

/-- C5 amended: `compile_syntax_node` writes, for any node other than a
number literal, FIRST the opcode byte of this node and only then, left to
right, the compiled code of each child (depth-first pre-order, Polish
notation meant to be read back to front) — provided the buffer already
holds at least one byte, as it always does below the root. -/
theorem c5_compile_order_amended (op : Op) (pv : α) (ch : List (SNode α))
    (code : List (Cell α)) (hwf : wf (.node op pv ch) = true)
    (hne : code ≠ []) (hop : op ≠ .number) :
    compile_node (.node op pv ch) code
      = .ok (code ++ Cell.op (opcodeOf op) :: (ch.map emit).flatten) := by
  have h := compile_append (.node op pv ch) code hwf hne
  rw [h]
  match ch with
  | [] =>
    have harity : op.arity = 0 := by simpa [wf] using hwf
    rw [emit_eq0 op pv [] harity hop]
    simp
  | [c0] =>
    simp only [wf, Bool.and_eq_true, decide_eq_true_eq] at hwf
    rw [emit_eq1 op pv c0 hwf.1]
    simp
  | [c0, c1] =>
    simp only [wf, Bool.and_eq_true, decide_eq_true_eq] at hwf
    rw [emit_eq2 op pv c0 c1 hwf.1.1]
    simp
  | _ :: _ :: _ :: _ => simp [wf] at hwf

/-- C5 witness: the amended ordering at the concrete node `2 + 3` with a
one-byte buffer already written. -/
theorem c5_compile_order_witness :
    wf (.node .plus (0 : ℚ) [.node .number 2 [], .node .number 3 []]) = true ∧
    ([Cell.op 0] : List (Cell ℚ)) ≠ [] ∧
    Op.plus ≠ .number ∧
    compile_node (.node .plus (0 : ℚ) [.node .number 2 [], .node .number 3 []]) [Cell.op 0]
      = .ok ([Cell.op 0] ++ Cell.op (opcodeOf .plus) ::
          ([(.node .number (2:ℚ) []), (.node .number 3 [])].map emit).flatten) :=
  ⟨by decide, by decide, by decide,
   c5_compile_order_amended .plus 0 [.node .number 2 [], .node .number 3 []] [Cell.op 0]
     (by decide) (by decide) (by decide)⟩

/-- C1 counterexample: the valid finished tree consisting of the single
constant node `pi` evaluates to π, but its compiled form is the single
byte 0 (`operator_to_opcode` has no entry for `OP_PI`), which the
machine does not recognise. Because that unknown byte sits at the start
of the buffer, the error flag set by the default arm (vm.c:168) is never
tested again: the scan loop ends and control falls through to
`assert(stack.count == 1)` (vm.c:171), which aborts on the empty stack.
Either way no numeric result is produced, so compiling then executing
does not yield the evaluation result. -/
theorem c1_pi_counterexample :
    operate realFns (.node .pi 0 []) 0 = .ok Real.pi ∧
    compiler_backend (.node .pi (0 : ℝ) []) = .ok [Cell.op 0] ∧
    machine_execute realFns 0 [Cell.op 0] = .error .asserted := by
  refine ⟨?_, rfl, rfl⟩
  simp [operate, realFns]

/-- C1 amended: for every well-formed finished tree with no pi or e
constant nodes, whose root is not a bare numeric literal, and at every
variable value at which tree evaluation succeeds, compiling with the
bytecode compiler succeeds and executing the compiled byte sequence on
the virtual machine yields exactly the evaluation result. -/
theorem c1_compile_execute_amended (M : MathFns α) (t : SNode α) (x w : α)
    (hwf : wf t = true) (hnc : no_const_nodes t = true)
    (hroot : t.op ≠ .number) (hev : operate M t x = .ok w) :
    compiler_backend t = .ok (emit t) ∧ machine_execute M x (emit t) = .ok w :=
  ⟨compiler_backend_emit t hwf hroot, machine_execute_emit M x t w hwf hnc hev⟩

/-- C1 witness: the amended statement applied to the tree `2 + 3` at
variable value 0. -/
theorem c1_compile_execute_witness :
    wf (.node .plus (0 : ℚ) [.node .number 2 [], .node .number 3 []]) = true ∧
    no_const_nodes (.node .plus (0 : ℚ) [.node .number 2 [], .node .number 3 []]) = true ∧
    SNode.op (.node .plus (0 : ℚ) [.node .number 2 [], .node .number 3 []]) ≠ .number ∧
    operate qFns (.node .plus (0 : ℚ) [.node .number 2 [], .node .number 3 []]) 0 = .ok 5 ∧
    (compiler_backend (.node .plus (0 : ℚ) [.node .number 2 [], .node .number 3 []])
        = .ok (emit (.node .plus (0 : ℚ) [.node .number 2 [], .node .number 3 []])) ∧
      machine_execute qFns 0 (emit (.node .plus (0 : ℚ) [.node .number 2 [], .node .number 3 []]))
        = .ok 5) :=
  ⟨by decide, by decide, by decide, by norm_num [operate],
   c1_compile_execute_amended qFns (.node .plus 0 [.node .number 2 [], .node .number 3 []])
     0 5 (by decide) (by decide) (by decide) (by norm_num [operate])⟩

/-- C2 counterexample: on the tree `1 / 0`, whose evaluated divisor is
exactly zero, tree evaluation does not return a failure result to the
caller — `syntax_node_operation_divide` prints and terminates the
process via `exit(1)` — and machine execution does not report any
failure at all: it performs the division (no zero test at vm.c:157) and
returns success. -/
theorem c2_divide_counterexample :
    operate qFns (.node .divide 0 [.node .number 1 [], .node .number 0 []]) 0
      = .error (.exited 1) ∧
    machine_execute qFns 0 (emit (.node .divide 0 [.node .number 1 [], .node .number 0 []]))
      = .ok 0 := by
  constructor
  · norm_num [operate]
  · norm_num [machine_execute, emit_eq2, emit_num, Op.arity, opcodeOf, exec_go.eq_def,
      OPC_NUM, OPC_NEG, OPC_ADD, OPC_SUB, OPC_MULT, OPC_DIV]

/-- C2 amended: for every division node whose divisor subtree evaluates
to exactly zero at the given variable value, tree evaluation terminates
the process with exit status 1 (after printing to stderr) instead of
returning a result, while machine execution of the compiled division
performs the quotient with no zero test and reports success. -/
theorem c2_divide_amended (M : MathFns α) (f g : SNode α) (x vf : α)
    (hwf0 : wf f = true) (hwf1 : wf g = true)
    (hnc0 : no_const_nodes f = true) (hnc1 : no_const_nodes g = true)
    (hf : operate M f x = .ok vf) (hg : operate M g x = .ok 0) :
    operate M (.node .divide 0 [f, g]) x = .error (.exited 1) ∧
    machine_execute M x (emit (.node .divide 0 [f, g])) = .ok (vf / 0) := by
  constructor
  · simp [operate, hg]
  · unfold machine_execute
    rw [emit_eq2 .divide 0 f g (by decide)]
    simp only [List.reverse_cons, List.reverse_append, List.append_assoc,
      List.singleton_append, List.append_nil]
    rw [exec_emit M x g 0 _ [] hwf1 hnc1 hg]
    rw [exec_emit M x f vf _ [0] hwf0 hnc0 hf]
    rw [show opcodeOf .divide = OPC_DIV from rfl, exec_go_div, exec_go_nil]
    rfl

/-- C2 witness: the amended statement applied to the tree `1 / 0` at
variable value 0. -/
theorem c2_divide_witness :
    wf (.node .number (1 : ℚ) []) = true ∧ wf (.node .number (0 : ℚ) []) = true ∧
    no_const_nodes (.node .number (1 : ℚ) []) = true ∧
    no_const_nodes (.node .number (0 : ℚ) []) = true ∧
    operate qFns (.node .number (1 : ℚ) []) 0 = .ok 1 ∧
    operate qFns (.node .number (0 : ℚ) []) 0 = .ok 0 ∧
    (operate qFns (.node .divide 0 [.node .number (1 : ℚ) [], .node .number 0 []]) 0
        = .error (.exited 1) ∧
      machine_execute qFns 0
          (emit (.node .divide 0 [.node .number (1 : ℚ) [], .node .number 0 []]))
        = .ok ((1 : ℚ) / 0)) :=
  ⟨by decide, by decide, by decide, by decide, by norm_num [operate], by norm_num [operate],
   c2_divide_amended qFns (.node .number 1 []) (.node .number 0 []) 0 1
     (by decide) (by decide) (by decide) (by decide)
     (by norm_num [operate]) (by norm_num [operate])⟩

/-- C3: deriving the node `exp(x)` yields the tree `1 * x` — the second
factor is a copy of the CHILD of the exponential node, not of the whole
`exp(x)` sub-expression (derive_exp, syntax_node.c:750) — and that tree
evaluates to 2 at x = 2, which differs from the specified
`Evaluate(derivative of x, 2) * exp(Evaluate(x, 2)) = 1 * exp 2`. -/
theorem c3_derive_exp_wrong_factor :
    derive (.node .exp (0 : ℝ) [.node .xvar 0 []])
      = .ok (.node .times 0 [.node .number 1 [], .node .xvar 0 []]) ∧
    operate realFns (.node .times (0 : ℝ) [.node .number 1 [], .node .xvar 0 []]) 2
      = .ok 2 ∧
    (1 : ℝ) * Real.exp 2 ≠ 2 := by
  refine ⟨by norm_num [derive, copy], by norm_num [operate], ?_⟩
  rw [one_mul]
  intro hcontra
  have h := Real.add_one_lt_exp (x := 2) (by norm_num)
  rw [hcontra] at h
  linarith

/-- C6: feeding the parser the token stream for `2+3*4` yields the tree
`2+(3*4)`, which evaluates to 14 (multiplication binds tighter than
addition), and the stream for `2^3^2` yields the right-associated tree
`2^(3^2)`, which evaluates to 512, not 64; but the stream for `(2+3)*4`
does NOT yield a tree evaluating to 20: when the token `+` is compared
against the left brace on top of the operator stack, the
assertion `precedence_top != 0` (parser.c:257) fails, because the brace
has precedence 0, so the parse aborts. -/
theorem c6_parse_streams :
    (parse_tokens [(.node .number (2 : ℝ) []), (.node .plus 0 []), (.node .number 3 []),
        (.node .times 0 []), (.node .number 4 [])]
      = .ok (some (.node .plus 0 [.node .number 2 [],
          .node .times 0 [.node .number 3 [], .node .number 4 []]]))) ∧
    (operate realFns (.node .plus (0 : ℝ) [.node .number 2 [],
        .node .times 0 [.node .number 3 [], .node .number 4 []]]) 0 = .ok 14) ∧
    (parse_tokens [(.node .leftBrace (0 : ℝ) []), (.node .number 2 []), (.node .plus 0 []),
        (.node .number 3 []), (.node .rightBrace 0 []), (.node .times 0 []),
        (.node .number 4 [])]
      = .error .asserted) ∧
    (parse_tokens [(.node .number (2 : ℝ) []), (.node .power 0 []), (.node .number 3 []),
        (.node .power 0 []), (.node .number 2 [])]
      = .ok (some (.node .power 0 [.node .number 2 [],
          .node .power 0 [.node .number 3 [], .node .number 2 []]]))) ∧
    (operate realFns (.node .power (0 : ℝ) [.node .number 2 [],
        .node .power 0 [.node .number 3 [], .node .number 2 []]]) 0 = .ok 512) := by
  refine ⟨rfl, by norm_num [operate], rfl, rfl, ?_⟩
  have h32 : realFns.fpow 3 2 = 9 := by
    show (3 : ℝ) ^ (2 : ℝ) = 9
    rw [show (2 : ℝ) = ((2 : ℕ) : ℝ) by norm_num, Real.rpow_natCast]
    norm_num
  have h29 : realFns.fpow 2 9 = 512 := by
    show (2 : ℝ) ^ (9 : ℝ) = 512
    rw [show (9 : ℝ) = ((9 : ℕ) : ℝ) by norm_num, Real.rpow_natCast]
    norm_num
  simp [operate, h32, h29]

/-- C8: with a function whose bytecode always evaluates to 1 (residual
never below the threshold) and a derivative whose bytecode evaluates to
exactly zero, the iteration performs the update `x - f/d` with no check
of the derivative against zero (method.c:42) — no division failure is
ever reported — and failure surfaces only when the 100-iteration cap is
exhausted, as exit status -1 carrying the current variable value. In C
the quotient 1/0.0 is an IEEE infinity that corrupts the iterate; in the
field embedding the quotient is 0, so the value carried at the cap is
the unchanged guess. -/
theorem c8_zero_derivative_cap (M : MathFns α) (guess : α) :
    method_iterate M (emit (.node .number 1 [])) (emit (.node .number 0 [])) guess
      = .ok (guess, -1) := by
  have hf : ∀ y : α, machine_execute M y (emit (.node .number (1 : α) [])) = .ok 1 :=
    fun y => machine_execute_emit M y _ 1 (by simp [wf, Op.arity])
      (by simp [no_const_nodes]) (by simp [operate])
  have hd : ∀ y : α, machine_execute M y (emit (.node .number (0 : α) [])) = .ok 0 :=
    fun y => machine_execute_emit M y _ 0 (by simp [wf, Op.arity])
      (by simp [no_const_nodes]) (by simp [operate])
  have heps : ¬ (|(1 : α)| < EPSILON) := by
    rw [abs_one, EPSILON]
    norm_num
  have hgo : ∀ (n : Nat) (y : α),
      method_go M (emit (.node .number 1 [])) (emit (.node .number 0 [])) n y
        = .ok (y, -1) := by
    intro n
    induction n with
    | zero => intro y; rfl
    | succ n ihn =>
      intro y
      have h1 : method_go M (emit (.node .number 1 [])) (emit (.node .number 0 []))
          (n + 1) y
          = if |(1 : α)| < EPSILON then .ok (y, 0)
            else method_go M (emit (.node .number 1 [])) (emit (.node .number 0 []))
              n (y - 1 / 0) := by
        simp [method_go, hf y, hd y]
      rw [h1, if_neg heps, div_zero, sub_zero]
      exact ihn y
  exact hgo MAX_ITERATIONS guess


/-- C9: condensing is idempotent — whenever `syntax_node_condense`
returns normally, running it again on the tree it left behind returns the
same foldability flag and leaves the tree unchanged (same operator tags,
numeric values, arities and structure at every node). -/
theorem c9_condense_idempotent (M : MathFns α) (t : SNode α) :
    ∀ (b : Bool) (t' : SNode α), condense M t = .ok (b, t') →
      condense M t' = .ok (b, t') := by
  induction t using SNode.inductionOn with
  | h op pv ch ih =>
    intro b t' hc
    cases op with
    | xvar =>
      simp [condense] at hc
      obtain ⟨hb, ht⟩ := hc
      subst hb
      subst ht
      simp [condense]
    | number =>
      simp [condense, Op.arity, operate] at hc
      obtain ⟨hb, ht⟩ := hc
      subst hb
      subst ht
      simp [condense, Op.arity, operate]
    | pi =>
      simp [condense, Op.arity, operate] at hc
      obtain ⟨hb, ht⟩ := hc
      subst hb
      subst ht
      simp [condense, Op.arity, operate]
    | e =>
      simp [condense, Op.arity, operate] at hc
      obtain ⟨hb, ht⟩ := hc
      subst hb
      subst ht
      simp [condense, Op.arity, operate]
    | unknown => simp [condense, Op.arity, operate] at hc
    | leftBrace => simp [condense, Op.arity, operate] at hc
    | rightBrace => simp [condense, Op.arity, operate] at hc
    | negate =>
      match ch with
      | [] => simp [condense, Op.arity] at hc
      | [c0, c1] => simp [condense, Op.arity] at hc
      | _ :: _ :: _ :: _ => simp [condense, Op.arity] at hc
      | [c0] =>
        simp [condense, Op.arity] at hc
        cases hr : condense M c0 with
        | error err => rw [hr] at hc; simp at hc
        | ok r =>
          obtain ⟨b0, c0'⟩ := r
          rw [hr] at hc
          simp only [ok_bind] at hc
          cases b0 with
          | true =>
            simp at hc
            cases hov : operate M (.node .negate pv [c0']) 0 with
            | error err => rw [hov] at hc; simp at hc
            | ok w =>
              rw [hov] at hc
              simp at hc
              obtain ⟨hb, ht⟩ := hc
              subst hb
              subst ht
              simp [condense, Op.arity, operate]
          | false =>
            simp at hc
            obtain ⟨hb, ht⟩ := hc
            subst hb
            subst ht
            have h2 := ih c0 (by simp) false c0' hr
            simp [condense, Op.arity, h2]
    | exp =>
      match ch with
      | [] => simp [condense, Op.arity] at hc
      | [c0, c1] => simp [condense, Op.arity] at hc
      | _ :: _ :: _ :: _ => simp [condense, Op.arity] at hc
      | [c0] =>
        simp [condense, Op.arity] at hc
        cases hr : condense M c0 with
        | error err => rw [hr] at hc; simp at hc
        | ok r =>
          obtain ⟨b0, c0'⟩ := r
          rw [hr] at hc
          simp only [ok_bind] at hc
          cases b0 with
          | true =>
            simp at hc
            cases hov : operate M (.node .exp pv [c0']) 0 with
            | error err => rw [hov] at hc; simp at hc
            | ok w =>
              rw [hov] at hc
              simp at hc
              obtain ⟨hb, ht⟩ := hc
              subst hb
              subst ht
              simp [condense, Op.arity, operate]
          | false =>
            simp at hc
            obtain ⟨hb, ht⟩ := hc
            subst hb
            subst ht
            have h2 := ih c0 (by simp) false c0' hr
            simp [condense, Op.arity, h2]
    | ln =>
      match ch with
      | [] => simp [condense, Op.arity] at hc
      | [c0, c1] => simp [condense, Op.arity] at hc
      | _ :: _ :: _ :: _ => simp [condense, Op.arity] at hc
      | [c0] =>
        simp [condense, Op.arity] at hc
        cases hr : condense M c0 with
        | error err => rw [hr] at hc; simp at hc
        | ok r =>
          obtain ⟨b0, c0'⟩ := r
          rw [hr] at hc
          simp only [ok_bind] at hc
          cases b0 with
          | true =>
            simp at hc
            cases hov : operate M (.node .ln pv [c0']) 0 with
            | error err => rw [hov] at hc; simp at hc
            | ok w =>
              rw [hov] at hc
              simp at hc
              obtain ⟨hb, ht⟩ := hc
              subst hb
              subst ht
              simp [condense, Op.arity, operate]
          | false =>
            simp at hc
            obtain ⟨hb, ht⟩ := hc
            subst hb
            subst ht
            have h2 := ih c0 (by simp) false c0' hr
            simp [condense, Op.arity, h2]
    | sin =>
      match ch with
      | [] => simp [condense, Op.arity] at hc
      | [c0, c1] => simp [condense, Op.arity] at hc
      | _ :: _ :: _ :: _ => simp [condense, Op.arity] at hc
      | [c0] =>
        simp [condense, Op.arity] at hc
        cases hr : condense M c0 with
        | error err => rw [hr] at hc; simp at hc
        | ok r =>
          obtain ⟨b0, c0'⟩ := r
          rw [hr] at hc
          simp only [ok_bind] at hc
          cases b0 with
          | true =>
            simp at hc
            cases hov : operate M (.node .sin pv [c0']) 0 with
            | error err => rw [hov] at hc; simp at hc
            | ok w =>
              rw [hov] at hc
              simp at hc
              obtain ⟨hb, ht⟩ := hc
              subst hb
              subst ht
              simp [condense, Op.arity, operate]
          | false =>
            simp at hc
            obtain ⟨hb, ht⟩ := hc
            subst hb
            subst ht
            have h2 := ih c0 (by simp) false c0' hr
            simp [condense, Op.arity, h2]
    | cos =>
      match ch with
      | [] => simp [condense, Op.arity] at hc
      | [c0, c1] => simp [condense, Op.arity] at hc
      | _ :: _ :: _ :: _ => simp [condense, Op.arity] at hc
      | [c0] =>
        simp [condense, Op.arity] at hc
        cases hr : condense M c0 with
        | error err => rw [hr] at hc; simp at hc
        | ok r =>
          obtain ⟨b0, c0'⟩ := r
          rw [hr] at hc
          simp only [ok_bind] at hc
          cases b0 with
          | true =>
            simp at hc
            cases hov : operate M (.node .cos pv [c0']) 0 with
            | error err => rw [hov] at hc; simp at hc
            | ok w =>
              rw [hov] at hc
              simp at hc
              obtain ⟨hb, ht⟩ := hc
              subst hb
              subst ht
              simp [condense, Op.arity, operate]
          | false =>
            simp at hc
            obtain ⟨hb, ht⟩ := hc
            subst hb
            subst ht
            have h2 := ih c0 (by simp) false c0' hr
            simp [condense, Op.arity, h2]
    | tan =>
      match ch with
      | [] => simp [condense, Op.arity] at hc
      | [c0, c1] => simp [condense, Op.arity] at hc
      | _ :: _ :: _ :: _ => simp [condense, Op.arity] at hc
      | [c0] =>
        simp [condense, Op.arity] at hc
        cases hr : condense M c0 with
        | error err => rw [hr] at hc; simp at hc
        | ok r =>
          obtain ⟨b0, c0'⟩ := r
          rw [hr] at hc
          simp only [ok_bind] at hc
          cases b0 with
          | true =>
            simp at hc
            cases hov : operate M (.node .tan pv [c0']) 0 with
            | error err => rw [hov] at hc; simp at hc
            | ok w =>
              rw [hov] at hc
              simp at hc
              obtain ⟨hb, ht⟩ := hc
              subst hb
              subst ht
              simp [condense, Op.arity, operate]
          | false =>
            simp at hc
            obtain ⟨hb, ht⟩ := hc
            subst hb
            subst ht
            have h2 := ih c0 (by simp) false c0' hr
            simp [condense, Op.arity, h2]
    | plus =>
      match ch with
      | [] => simp [condense, Op.arity] at hc
      | [c0] => simp [condense, Op.arity] at hc
      | _ :: _ :: _ :: _ => simp [condense, Op.arity] at hc
      | [c0, c1] =>
        simp [condense, Op.arity] at hc
        cases hr0 : condense M c0 with
        | error err => rw [hr0] at hc; simp at hc
        | ok r0 =>
          obtain ⟨b0, c0'⟩ := r0
          rw [hr0] at hc
          simp only [ok_bind] at hc
          cases hr1 : condense M c1 with
          | error err => rw [hr1] at hc; simp at hc
          | ok r1 =>
            obtain ⟨b1, c1'⟩ := r1
            rw [hr1] at hc
            simp only [ok_bind] at hc
            cases b0 with
            | false =>
              cases b1 with
              | false =>
                simp at hc
                obtain ⟨hb, ht⟩ := hc
                subst hb
                subst ht
                have h20 := ih c0 (by simp) false c0' hr0
                have h21 := ih c1 (by simp) false c1' hr1
                simp [condense, Op.arity, h20, h21]
              | true =>
                simp at hc
                obtain ⟨hb, ht⟩ := hc
                subst hb
                subst ht
                have h20 := ih c0 (by simp) false c0' hr0
                have h21 := ih c1 (by simp) true c1' hr1
                simp [condense, Op.arity, h20, h21]
            | true =>
              cases b1 with
              | false =>
                simp at hc
                obtain ⟨hb, ht⟩ := hc
                subst hb
                subst ht
                have h20 := ih c0 (by simp) true c0' hr0
                have h21 := ih c1 (by simp) false c1' hr1
                simp [condense, Op.arity, h20, h21]
              | true =>
                simp at hc
                cases hov : operate M (.node .plus pv [c0', c1']) 0 with
                | error err => rw [hov] at hc; simp at hc
                | ok w =>
                  rw [hov] at hc
                  simp at hc
                  obtain ⟨hb, ht⟩ := hc
                  subst hb
                  subst ht
                  simp [condense, Op.arity, operate]
    | minus =>
      match ch with
      | [] => simp [condense, Op.arity] at hc
      | [c0] => simp [condense, Op.arity] at hc
      | _ :: _ :: _ :: _ => simp [condense, Op.arity] at hc
      | [c0, c1] =>
        simp [condense, Op.arity] at hc
        cases hr0 : condense M c0 with
        | error err => rw [hr0] at hc; simp at hc
        | ok r0 =>
          obtain ⟨b0, c0'⟩ := r0
          rw [hr0] at hc
          simp only [ok_bind] at hc
          cases hr1 : condense M c1 with
          | error err => rw [hr1] at hc; simp at hc
          | ok r1 =>
            obtain ⟨b1, c1'⟩ := r1
            rw [hr1] at hc
            simp only [ok_bind] at hc
            cases b0 with
            | false =>
              cases b1 with
              | false =>
                simp at hc
                obtain ⟨hb, ht⟩ := hc
                subst hb
                subst ht
                have h20 := ih c0 (by simp) false c0' hr0
                have h21 := ih c1 (by simp) false c1' hr1
                simp [condense, Op.arity, h20, h21]
              | true =>
                simp at hc
                obtain ⟨hb, ht⟩ := hc
                subst hb
                subst ht
                have h20 := ih c0 (by simp) false c0' hr0
                have h21 := ih c1 (by simp) true c1' hr1
                simp [condense, Op.arity, h20, h21]
            | true =>
              cases b1 with
              | false =>
                simp at hc
                obtain ⟨hb, ht⟩ := hc
                subst hb
                subst ht
                have h20 := ih c0 (by simp) true c0' hr0
                have h21 := ih c1 (by simp) false c1' hr1
                simp [condense, Op.arity, h20, h21]
              | true =>
                simp at hc
                cases hov : operate M (.node .minus pv [c0', c1']) 0 with
                | error err => rw [hov] at hc; simp at hc
                | ok w =>
                  rw [hov] at hc
                  simp at hc
                  obtain ⟨hb, ht⟩ := hc
                  subst hb
                  subst ht
                  simp [condense, Op.arity, operate]
    | times =>
      match ch with
      | [] => simp [condense, Op.arity] at hc
      | [c0] => simp [condense, Op.arity] at hc
      | _ :: _ :: _ :: _ => simp [condense, Op.arity] at hc
      | [c0, c1] =>
        simp [condense, Op.arity] at hc
        cases hr0 : condense M c0 with
        | error err => rw [hr0] at hc; simp at hc
        | ok r0 =>
          obtain ⟨b0, c0'⟩ := r0
          rw [hr0] at hc
          simp only [ok_bind] at hc
          cases hr1 : condense M c1 with
          | error err => rw [hr1] at hc; simp at hc
          | ok r1 =>
            obtain ⟨b1, c1'⟩ := r1
            rw [hr1] at hc
            simp only [ok_bind] at hc
            cases b0 with
            | false =>
              cases b1 with
              | false =>
                simp at hc
                obtain ⟨hb, ht⟩ := hc
                subst hb
                subst ht
                have h20 := ih c0 (by simp) false c0' hr0
                have h21 := ih c1 (by simp) false c1' hr1
                simp [condense, Op.arity, h20, h21]
              | true =>
                simp at hc
                obtain ⟨hb, ht⟩ := hc
                subst hb
                subst ht
                have h20 := ih c0 (by simp) false c0' hr0
                have h21 := ih c1 (by simp) true c1' hr1
                simp [condense, Op.arity, h20, h21]
            | true =>
              cases b1 with
              | false =>
                simp at hc
                obtain ⟨hb, ht⟩ := hc
                subst hb
                subst ht
                have h20 := ih c0 (by simp) true c0' hr0
                have h21 := ih c1 (by simp) false c1' hr1
                simp [condense, Op.arity, h20, h21]
              | true =>
                simp at hc
                cases hov : operate M (.node .times pv [c0', c1']) 0 with
                | error err => rw [hov] at hc; simp at hc
                | ok w =>
                  rw [hov] at hc
                  simp at hc
                  obtain ⟨hb, ht⟩ := hc
                  subst hb
                  subst ht
                  simp [condense, Op.arity, operate]
    | divide =>
      match ch with
      | [] => simp [condense, Op.arity] at hc
      | [c0] => simp [condense, Op.arity] at hc
      | _ :: _ :: _ :: _ => simp [condense, Op.arity] at hc
      | [c0, c1] =>
        simp [condense, Op.arity] at hc
        cases hr0 : condense M c0 with
        | error err => rw [hr0] at hc; simp at hc
        | ok r0 =>
          obtain ⟨b0, c0'⟩ := r0
          rw [hr0] at hc
          simp only [ok_bind] at hc
          cases hr1 : condense M c1 with
          | error err => rw [hr1] at hc; simp at hc
          | ok r1 =>
            obtain ⟨b1, c1'⟩ := r1
            rw [hr1] at hc
            simp only [ok_bind] at hc
            cases b0 with
            | false =>
              cases b1 with
              | false =>
                simp at hc
                obtain ⟨hb, ht⟩ := hc
                subst hb
                subst ht
                have h20 := ih c0 (by simp) false c0' hr0
                have h21 := ih c1 (by simp) false c1' hr1
                simp [condense, Op.arity, h20, h21]
              | true =>
                simp at hc
                obtain ⟨hb, ht⟩ := hc
                subst hb
                subst ht
                have h20 := ih c0 (by simp) false c0' hr0
                have h21 := ih c1 (by simp) true c1' hr1
                simp [condense, Op.arity, h20, h21]
            | true =>
              cases b1 with
              | false =>
                simp at hc
                obtain ⟨hb, ht⟩ := hc
                subst hb
                subst ht
                have h20 := ih c0 (by simp) true c0' hr0
                have h21 := ih c1 (by simp) false c1' hr1
                simp [condense, Op.arity, h20, h21]
              | true =>
                simp at hc
                cases hov : operate M (.node .divide pv [c0', c1']) 0 with
                | error err => rw [hov] at hc; simp at hc
                | ok w =>
                  rw [hov] at hc
                  simp at hc
                  obtain ⟨hb, ht⟩ := hc
                  subst hb
                  subst ht
                  simp [condense, Op.arity, operate]
    | power =>
      match ch with
      | [] => simp [condense, Op.arity] at hc
      | [c0] => simp [condense, Op.arity] at hc
      | _ :: _ :: _ :: _ => simp [condense, Op.arity] at hc
      | [c0, c1] =>
        simp [condense, Op.arity] at hc
        cases hr0 : condense M c0 with
        | error err => rw [hr0] at hc; simp at hc
        | ok r0 =>
          obtain ⟨b0, c0'⟩ := r0
          rw [hr0] at hc
          simp only [ok_bind] at hc
          cases hr1 : condense M c1 with
          | error err => rw [hr1] at hc; simp at hc
          | ok r1 =>
            obtain ⟨b1, c1'⟩ := r1
            rw [hr1] at hc
            simp only [ok_bind] at hc
            cases b0 with
            | false =>
              cases b1 with
              | false =>
                simp at hc
                obtain ⟨hb, ht⟩ := hc
                subst hb
                subst ht
                have h20 := ih c0 (by simp) false c0' hr0
                have h21 := ih c1 (by simp) false c1' hr1
                simp [condense, Op.arity, h20, h21]
              | true =>
                simp at hc
                obtain ⟨hb, ht⟩ := hc
                subst hb
                subst ht
                have h20 := ih c0 (by simp) false c0' hr0
                have h21 := ih c1 (by simp) true c1' hr1
                simp [condense, Op.arity, h20, h21]
            | true =>
              cases b1 with
              | false =>
                simp at hc
                obtain ⟨hb, ht⟩ := hc
                subst hb
                subst ht
                have h20 := ih c0 (by simp) true c0' hr0
                have h21 := ih c1 (by simp) false c1' hr1
                simp [condense, Op.arity, h20, h21]
              | true =>
                simp at hc
                cases hov : operate M (.node .power pv [c0', c1']) 0 with
                | error err => rw [hov] at hc; simp at hc
                | ok w =>
                  rw [hov] at hc
                  simp at hc
                  obtain ⟨hb, ht⟩ := hc
                  subst hb
                  subst ht
                  simp [condense, Op.arity, operate]

/-- C9 witness: condensing `2 + 3` folds it to the literal 5 with flag
true, and condensing that result again returns the same flag and tree. -/
theorem c9_condense_witness :
    condense qFns (.node .plus 0 [.node .number 2 [], .node .number 3 []])
      = .ok (true, .node .number 5 []) ∧
    condense qFns (.node .number (5 : ℚ) []) = .ok (true, .node .number 5 []) :=
  ⟨by simp [condense, Op.arity, operate]; norm_num,
   c9_condense_idempotent qFns (.node .plus 0 [.node .number 2 [], .node .number 3 []])
     true (.node .number 5 []) (by simp [condense, Op.arity, operate]; norm_num)⟩

/-- C8 witness: the cap failure at the concrete guess 5 over the
rationals. -/
theorem c8_zero_derivative_witness :
    method_iterate qFns (emit (.node .number 1 [])) (emit (.node .number 0 [])) (5 : ℚ)
      = .ok (5, -1) :=
  c8_zero_derivative_cap qFns 5

/-- C10 witness: the assertion failure at the concrete literal root 5
over the rationals. -/
theorem c10_literal_root_witness :
    compiler_backend (.node .number (5 : ℚ) []) = .error .asserted :=
  c10_literal_root_assert 5

end Newton
